import Mathlib

/-!
Shallow embedding of the artistore repository (a versioned artifact store in Go)
for checking its natural-language specification.

Modelled components:
  * the bearer-token credential module (token code with key-prefix checking, and
    KeyPrefixes from key.go);
  * the on-disk blob store (store.go: Latest, Metadata, Get, Put, sweepByNum,
    sweepByTime), with one directory per key modelled as a list of
    revision-numbered entries;
  * the HTTP facade (serve.go: parseRangeRequest, RangeRequest.Size/Requested,
    ServeHTTP method dispatch, Post authorization chain).

Go strings are modelled as lists of characters (valid artifact keys are ASCII,
so character-level and byte-level views agree on every input of interest).
External library functions that are not repository code (the MD5 and SHA-224
digests from crypto, mime/http content-type detection) are parameters of the
model; everything the repository itself computes around them (what bytes are
fed to the digest, how the result is formatted and compared) is embedded from
the source.  Gzip compression and the JSON metadata header are assumed to
round-trip, so a stored file is modelled as its metadata plus its uncompressed
payload.
-/

/-- Decidable equality for Except results, so concrete store outcomes can be
    checked by evaluation. -/
instance {ε α : Type} [DecidableEq ε] [DecidableEq α] : DecidableEq (Except ε α) :=
  fun x y =>
    match x, y with
    | .error a, .error b =>
      if h : a = b then .isTrue (by rw [h]) else .isFalse (fun he => h (Except.error.inj he))
    | .ok a, .ok b =>
      if h : a = b then .isTrue (by rw [h]) else .isFalse (fun he => h (Except.ok.inj he))
    | .error _, .ok _ => .isFalse (fun he => Except.noConfusion he)
    | .ok _, .error _ => .isFalse (fun he => Except.noConfusion he)

namespace Artistore

/-- Strings, modelled as lists of characters. -/
abbrev Str := List Char

/-- Conversion from a Lean string literal to the list-of-characters model. -/
def strL (s : String) : Str := s.toList

/-- ASCII whitespace, the relevant fragment of the cutset of Go strings.TrimSpace. -/
def isSpc (c : Char) : Bool :=
  c == ' ' || c == '\t' || c == '\n' || c == '\r' || c == Char.ofNat 11 || c == Char.ofNat 12

/-- Decimal digit test, as in Go strconv. -/
def isDigit (c : Char) : Bool := 48 ≤ c.toNat && c.toNat ≤ 57

/-- Left trim of whitespace (Go strings.TrimSpace, leading side). -/
def ltrim (l : Str) : Str := l.dropWhile isSpc

/-- Right trim of whitespace (Go strings.TrimSpace, trailing side). -/
def rtrim (l : Str) : Str := (l.reverse.dropWhile isSpc).reverse

/-- Model of Go strings.TrimSpace. -/
def goTrimSpace (l : Str) : Str := rtrim (ltrim l)

/-- Model of Go strings.SplitN(s, sep, 2) for a one-character separator:
    the part before the first separator, and optionally the rest.  A missing
    second component models the length-1 slice Go returns when the separator
    does not occur. -/
def splitFirst (sep : Char) : Str → Str × Option Str
  | [] => ([], none)
  | c :: rest =>
    if c == sep then ([], some rest)
    else
      let r := splitFirst sep rest
      (c :: r.1, r.2)

/-- Model of Go strings.Split(s, sep) for a one-character separator. -/
def splitChar (sep : Char) : Str → List Str
  | [] => [[]]
  | c :: rest =>
    if c == sep then [] :: splitChar sep rest
    else
      match splitChar sep rest with
      | [] => [[c]]
      | g :: gs => (c :: g) :: gs

/-- Numeric value of a digit string (most significant digit first). -/
def digitsVal (l : Str) : Nat := l.foldl (fun a c => a * 10 + (c.toNat - 48)) 0

/-- Model of Go strconv.ParseInt(s, 10, 64).  Returns the value together with an
    error flag; on a syntax error Go returns 0, on a range error the clamped
    bound, in both cases with a non-nil error. -/
def goParseInt (s : Str) : Int × Option Unit :=
  match s with
  | [] => (0, some ())
  | c :: rest =>
    let neg : Bool := c == '-'
    let digits : Str := if c == '-' || c == '+' then rest else s
    if digits.isEmpty then (0, some ())
    else if digits.all isDigit then
      let v := digitsVal digits
      if neg then
        if v ≤ 2 ^ 63 then (-(v : Int), none) else (-(2 ^ 63 : Int), some ())
      else
        if v ≤ 2 ^ 63 - 1 then ((v : Int), none) else ((2 ^ 63 - 1 : Int), some ())
    else (0, some ())

/-- ASCII lower-casing of one character. -/
def toLowerChar (c : Char) : Char :=
  if 65 ≤ c.toNat ∧ c.toNat ≤ 90 then Char.ofNat (c.toNat + 32) else c

/-! ### Credential module (token code and KeyPrefixes from key.go)

The digest is a parameter H standing for the external SHA-224 from crypto;
the token layout (4-byte salt followed by the 28-byte digest of
secret, salt and key concatenated, in a fixed 32-byte buffer) is from
NewTokenWithSalt in the source. -/

/-- Byte sequence of a key (ASCII keys, one byte per character). -/
def keyBytes (k : String) : List Nat := k.toList.map Char.toNat

/-- Copy a list into the front of an n-byte zero buffer, as the Go copy builtin
    does into a fixed-size array: extra input bytes are dropped, missing ones
    leave zeros. -/
def padTo (n : Nat) (l : List Nat) : List Nat :=
  l.take n ++ List.replicate (n - (l.take n).length) 0

/-- Model of NewTokenWithSalt: a 32-byte token, 4 bytes of salt then the 28-byte
    digest of secret concatenated with salt and key. -/
def NewTokenWithSalt (H : List Nat → List Nat) (s : List Nat) (key : String)
    (salt : List Nat) : List Nat :=
  padTo 4 salt ++ padTo 28 (H (s ++ salt ++ keyBytes key))

/-- Model of Token.Salt: the first 4 bytes of a token. -/
def tokenSalt (t : List Nat) : List Nat := t.take 4

/-- Helper for KeyPrefixes: running concatenation of the components, each
    followed by a slash, in accumulation order. -/
def accPres (x : Str) : List Str → List Str
  | [] => []
  | p :: ps =>
    let x' := x ++ p ++ ['/']
    x' :: accPres x' ps

/-- Model of KeyPrefixes from key.go: every slash-terminated proper prefix of a
    key that contains a slash, from longest to shortest; empty for a key with no
    slash. -/
def KeyPrefixes (key : String) : List String :=
  if key.toList.contains '/' then
    ((accPres [] ((splitChar '/' key.toList).dropLast)).reverse).map
      (fun l => String.mk l)
  else []

/-- Model of IsCorrentToken: constant-time equality of the token against the
    token re-derived for the key with the token's own salt, and on failure
    against each entry of KeyPrefixes in turn (the hmac.Equal comparison is
    plain byte equality on equal-length inputs). -/
def IsCorrentToken (H : List Nat → List Nat) (s : List Nat) (t : List Nat)
    (key : String) : Bool :=
  (NewTokenWithSalt H s key (tokenSalt t) == t) ||
    (KeyPrefixes key).any (fun k => NewTokenWithSalt H s k (tokenSalt t) == t)

/-! ### Blob store (store.go)

One key's on-disk directory is a list of entries named by revision number.
An entry is either a well-formed gzip file (its metadata header plus the
uncompressed payload) or a file whose open fails with a non-NotExist error
(permission problem, corrupt gzip header, ...), carrying an opaque error code.
A missing directory is the none state. -/

/-- Model of the Metadata struct: the JSON blob in the gzip Extra field plus the
    Name and ModTime header fields. -/
structure Metadata where
  Key : String
  Revision : Nat
  Typ : Str
  Size : Nat
  Hash : Str
  Timestamp : Int
deriving DecidableEq

/-- The Go zero value Metadata{}. -/
def emptyMeta : Metadata := ⟨"", 0, [], 0, [], 0⟩

/-- A well-formed stored revision file: gzip header metadata and uncompressed
    payload (gzip and the JSON header are assumed to round-trip). -/
structure GoFile where
  meta : Metadata
  content : List Nat
deriving DecidableEq

/-- A directory entry: a readable file, or one whose open fails with an error
    other than NotExist (identified by an opaque code). -/
inductive DirEntry
  | ok (f : GoFile)
  | bad (code : Nat)
deriving DecidableEq

/-- A key's directory: absent, or a list of revision-numbered entries. -/
abbrev Dir := Option (List (Nat × DirEntry))

/-- Revision numbers present in a directory. -/
def revs (d : Dir) : List Nat := (d.getD []).map (fun e => e.1)

/-- Maximum numeric file name, 0 when there is none: the scan in
    LocalStore.Latest. -/
def maxRevL (es : List (Nat × DirEntry)) : Nat :=
  es.foldr (fun e a => max e.1 a) 0

/-- Maximum revision of a possibly-missing directory. -/
def maxRevD (d : Dir) : Nat :=
  match d with
  | none => 0
  | some es => maxRevL es

/-- First entry with the given revision name. -/
def lookupE : List (Nat × DirEntry) → Nat → Option DirEntry
  | [], _ => none
  | e :: es, r => if e.1 = r then some e.2 else lookupE es r

/-- Entry lookup on a possibly-missing directory. -/
def lookupD (d : Dir) (r : Nat) : Option DirEntry := lookupE (d.getD []) r

/-- Errors surfaced by the store: the two sentinels, or an underlying error
    propagated verbatim (by its code). -/
inductive StoreErr
  | noSuchArtifact
  | revisionDeleted
  | io (code : Nat)
deriving DecidableEq

/-- Failure modes of LocalStore.open: the file or directory does not exist, or
    os.Open / gzip.NewReader fails for another reason. -/
inductive OpenErr
  | notExist
  | other (code : Nat)
deriving DecidableEq

/-- Model of LocalStore.Latest: NoSuchArtifact when the directory is missing,
    otherwise the maximum numeric file name (0 for an empty directory). -/
def Latest (d : Dir) : Except StoreErr Nat :=
  match d with
  | none => .error .noSuchArtifact
  | some es => .ok (maxRevL es)

/-- Model of LocalStore.open: os.Open of the revision file followed by
    gzip.NewReader. -/
def openFile (d : Dir) (rev : Nat) : Except OpenErr GoFile :=
  match d with
  | none => .error .notExist
  | some es =>
    match lookupE es rev with
    | none => .error .notExist
    | some (.bad c) => .error (.other c)
    | some (.ok f) => .ok f

namespace LocalStore

/-- Model of LocalStore.Metadata.  On a NotExist open error it distinguishes
    revisionDeleted (a higher revision exists) from noSuchArtifact; on any
    other open error the source returns the zero Metadata with a nil error
    (store.go line 176), which this model reproduces as a successful result
    carrying emptyMeta. -/
def Metadata (d : Dir) (rev : Nat) : Except StoreErr Artistore.Metadata :=
  match openFile d rev with
  | .error .notExist =>
    match Latest d with
    | .ok l => if rev < l then .error .revisionDeleted else .error .noSuchArtifact
    | .error _ => .error .noSuchArtifact
  | .error (.other _) => .ok emptyMeta
  | .ok f => .ok f.meta

/-- Result of LocalStore.Get: a reader plus its metadata, an error, or a Go
    runtime panic (nil-pointer dereference). -/
inductive GetResult
  | ok (f : GoFile) (m : Artistore.Metadata)
  | err (e : StoreErr)
  | panic
deriving DecidableEq

/-- Model of LocalStore.Get.  On a NotExist open error with an existing
    directory and rev not below the latest revision, the source neither
    returns nor assigns the reader, and falls through to f.Metadata() with a
    nil reader: a nil-pointer dereference, modelled as panic. -/
def Get (d : Dir) (rev : Nat) : GetResult :=
  match openFile d rev with
  | .error .notExist =>
    match Latest d with
    | .error _ => .err .noSuchArtifact
    | .ok l => if rev < l then .err .revisionDeleted else .panic
  | .error (.other c) => .err (.io c)
  | .ok f => .ok f f.meta

end LocalStore

/-- Model of the TempFile staging writer: the bytes written so far.  The size
    counter always equals the length of the accumulated data, and the md5
    hasher state is determined by the same accumulated data, so both are
    recovered from it. -/
structure TempFile where
  data : List Nat
deriving DecidableEq

/-- TempFile.Write: append to the staged bytes (and feed the hasher). -/
def TempFile.write (t : TempFile) (p : List Nat) : TempFile := ⟨t.data ++ p⟩

/-- TempFile.Size: the byte counter. -/
def TempFile.Size (t : TempFile) : Nat := t.data.length

/-- Lowercase hexadecimal digit. -/
def hexDigitChar (n : Nat) : Char :=
  if n < 10 then Char.ofNat (48 + n) else Char.ofNat (87 + n)

/-- Two lowercase hex digits of one byte. -/
def byteHex (b : Nat) : Str :=
  [hexDigitChar ((b % 256) / 16), hexDigitChar (b % 16)]

/-- The Sprintf %032x formatting of a digest: lowercase hex, zero-padded on the
    left to at least 32 characters. -/
def hex032 (bs : List Nat) : Str :=
  let s := (bs.map byteHex).flatten
  List.replicate (32 - s.length) '0' ++ s

/-- TempFile.Hash: the %032x rendering of the md5 digest of the staged bytes
    (md5 itself is the external crypto digest, a parameter). -/
def TempFile.Hash (md5 : List Nat → List Nat) (t : TempFile) : Str :=
  hex032 (md5 t.data)

namespace LocalStore

/-- Model of LocalStore.create: read Latest ignoring its error, add one, make
    the directory, create the revision file (truncating any file of that name).
    Returns the new revision and the other entries; the created file is filled
    in by Put. -/
def create (d : Dir) : Nat × List (Nat × DirEntry) :=
  let rev0 := match Latest d with | .ok l => l | .error _ => 0
  let rev := rev0 + 1
  (rev, (d.getD []).filter (fun e => decide (e.1 ≠ rev)))

/-- Model of LocalStore.Put (success path): read up to 512 head bytes, allocate
    the revision, stage head plus the rest of the body through the temp writer,
    set the gzip header metadata from the staged size and hash and the sniffed
    content type, and copy the staged bytes into the file.  The md5 digest and
    detectContentType (mime table and http sniffing, both external) are
    parameters; now is the wall-clock time SetMetadata stamps into ModTime. -/
def Put (md5 : List Nat → List Nat) (dct : String → List Nat → Str) (now : Int)
    (key : String) (d : Dir) (body : List Nat) : Nat × Dir :=
  let n := min 512 body.length
  let head := body.take n
  let r := create d
  let temp : TempFile := ⟨[]⟩
  let temp := temp.write head
  let temp := temp.write (body.drop n)
  let meta : Artistore.Metadata :=
    { Key := key, Revision := r.1, Typ := dct key head,
      Size := temp.Size, Hash := temp.Hash md5, Timestamp := now }
  (r.1, some (r.2 ++ [(r.1, .ok ⟨meta, temp.data⟩)]))

/-- Model of LocalStore.sweepByNum: with a positive retention count, remove
    every file whose numeric name is at most latest minus the count (removals
    succeed in this model; the source logs and continues on a failed one). -/
def sweepByNum (num : Int) (latest : Nat) (d : Dir) : Dir :=
  if num ≤ 0 then d
  else
    match d with
    | none => d
    | some es => some (es.filter (fun e => decide (¬ ((e.1 : Int) ≤ (latest : Int) - num))))

/-- Model of LocalStore.sweepByTime: with a non-zero retention period, for every
    entry other than the latest revision, read its metadata and remove it when
    its timestamp plus the period is before now.  A metadata error skips the
    entry; the source's read of each entry happens before any removal could
    affect it, so a filter over the original listing is faithful. -/
def sweepByTime (period now : Int) (d : Dir) : Dir :=
  if period = 0 then d
  else
    match d with
    | none => d
    | some es =>
      some (es.filter (fun e =>
        if e.1 = maxRevL es then true
        else
          match Metadata (some es) e.1 with
          | .error _ => true
          | .ok m => decide (¬ (m.Timestamp + period < now))))

end LocalStore

/-! ### Interleaved store operations (for the revision-sequence claim)

A run is a list of operations on one key's directory: uploads, the count-based
sweeps they spawn (each pending sweep's latest argument is a revision some Put
already returned for this key, hence at most the current maximum), and ticks of
the age-based sweeper. -/

/-- One operation on a key's directory. -/
inductive StoreOp
  | put (body : List Nat) (now : Int)
  | sweepNum (latestArg : Nat) (num : Int)
  | sweepTime (period now : Int)
deriving DecidableEq

/-- Execute one operation; a put also yields its returned revision. -/
def execOp (md5 : List Nat → List Nat) (dct : String → List Nat → Str)
    (key : String) (d : Dir) : StoreOp → Dir × Option Nat
  | .put body now => ((LocalStore.Put md5 dct now key d body).2,
                      some (LocalStore.Put md5 dct now key d body).1)
  | .sweepNum l num => (LocalStore.sweepByNum num l d, none)
  | .sweepTime p now => (LocalStore.sweepByTime p now d, none)

/-- Execute a run, collecting the revisions the puts return, in order. -/
def execOps (md5 : List Nat → List Nat) (dct : String → List Nat → Str)
    (key : String) (d : Dir) : List StoreOp → Dir × List Nat
  | [] => (d, [])
  | op :: ops =>
    let r := execOp md5 dct key d op
    let rr := execOps md5 dct key r.1 ops
    (rr.1, (match r.2 with | none => [] | some n => [n]) ++ rr.2)

/-- A run is valid when every count-based sweep's latest argument is at most
    the directory's current maximum revision: true of every sweep the server
    spawns, since its argument is a revision previously returned by Put for
    this key. -/
def ValidOps (md5 : List Nat → List Nat) (dct : String → List Nat → Str)
    (key : String) (d : Dir) : List StoreOp → Bool
  | [] => true
  | .sweepNum l num :: ops =>
    decide (l ≤ maxRevD d) && ValidOps md5 dct key (LocalStore.sweepByNum num l d) ops
  | op :: ops => ValidOps md5 dct key (execOp md5 dct key d op).1 ops

/-- Number of uploads in a run. -/
def countPuts (ops : List StoreOp) : Nat :=
  ops.countP (fun op => match op with | .put _ _ => true | _ => false)

/-! ### HTTP facade (serve.go) -/

/-- Model of the RangeRequest struct (all fields int64 in the source). -/
structure RangeRequest where
  From : Int := 0
  To : Int := 0
  Suffix : Int := 0
  Total : Int := 0
deriving DecidableEq

/-- The zero-value RangeRequest. -/
def zeroRange : RangeRequest := {}

/-- Model of RangeRequest.Requested. -/
def RangeRequest.Requested (r : RangeRequest) : Bool :=
  r.From != 0 || r.To != 0 || r.Suffix != 0

/-- Model of RangeRequest.Size. -/
def RangeRequest.Size (r : RangeRequest) : Int :=
  if r.Suffix > 0 then r.Suffix
  else if r.To == 0 then r.Total - r.From
  else r.To - r.From

/-- Error values parseRangeRequest can set. -/
inductive RangeErr
  | invalidRangeType
  | parseIntErr
  | invalidRange
deriving DecidableEq

/-- Outcome of running a Go function body: a normal return, or a runtime
    panic (here: an out-of-bounds slice index). -/
inductive GoResult (α : Type)
  | ret (a : α)
  | panic
deriving DecidableEq

/-- Final validation at the bottom of parseRangeRequest: reject unless From is
    non-negative and To is zero or greater than From.  The partially-filled
    request is returned alongside the error, as in the source. -/
def rangeValidate (r : RangeRequest) : GoResult (RangeRequest × Option RangeErr) :=
  if r.From < 0 ∨ (r.To ≠ 0 ∧ r.To ≤ r.From) then .ret (r, some .invalidRange)
  else .ret (r, none)

/-- The part of parseRangeRequest after the unit has been stripped and the
    first comma-separated spec extracted and trimmed: split on the first dash
    and parse the two sides.  The source indexes xs[1] unconditionally inside
    both branches, so a spec with no dash whose relevant side parses panics. -/
def parseSpec (spec : Str) : GoResult (RangeRequest × Option RangeErr) :=
  match splitFirst '-' spec with
  | (x0, none) =>
    if x0.isEmpty then .panic
    else
      match goParseInt x0 with
      | (v, some _) => .ret ({ zeroRange with From := v }, some .parseIntErr)
      | (_, none) => .panic
  | (x0, some x1) =>
    if x0.isEmpty then
      if x1.isEmpty then rangeValidate zeroRange
      else
        match goParseInt x1 with
        | (v, some _) => .ret ({ zeroRange with Suffix := v }, some .parseIntErr)
        | (v, none) => rangeValidate { zeroRange with Suffix := v }
    else
      match goParseInt x0 with
      | (v0, some _) => .ret ({ zeroRange with From := v0 }, some .parseIntErr)
      | (v0, none) =>
        if x1.isEmpty then rangeValidate { zeroRange with From := v0 }
        else
          match goParseInt x1 with
          | (v1, some _) => .ret ({ zeroRange with From := v0, To := v1 }, some .parseIntErr)
          | (v1, none) => rangeValidate { zeroRange with From := v0, To := v1 + 1 }

/-- Model of parseRangeRequest: empty header gives the zero range with no
    error; a unit other than bytes= is the unsupported-range-unit error; the
    remainder is trimmed, cut at the first comma, trimmed again and parsed by
    parseSpec. -/
def parseRangeRequest (h : Str) : GoResult (RangeRequest × Option RangeErr) :=
  if h.isEmpty then .ret (zeroRange, none)
  else if ¬ (strL ("bytes=")).isPrefixOf h then .ret (zeroRange, some .invalidRangeType)
  else parseSpec (goTrimSpace (splitFirst ',' (goTrimSpace (h.drop 6))).1)

/-- Handlers a request can be dispatched to. -/
inductive Handler
  | get
  | post
  | head
  | options
deriving DecidableEq

/-- Outcome of the ServeHTTP dispatch layer. -/
inductive ServeOutcome
  | notFound404
  | methodNotAllowed405
  | dispatched (h : Handler) (key : Str)
deriving DecidableEq

namespace Server

/-- Model of Server.ServeHTTP: the key is the request path with every leading
    slash trimmed; an empty key answers 404 before the method switch; known
    methods dispatch to their handlers, anything else answers 405. -/
def ServeHTTP (method : Str) (path : Str) : ServeOutcome :=
  let key := path.dropWhile (fun c => c == '/')
  if key.isEmpty then .notFound404
  else if method = strL ("GET") then .dispatched .get key
  else if method = strL ("POST") then .dispatched .post key
  else if method = strL ("HEAD") then .dispatched .head key
  else if method = strL ("OPTIONS") then .dispatched .options key
  else .methodNotAllowed405

/-- The three 403 reasons of the POST authorization chain. -/
inductive AuthFail
  | missing
  | badScheme
  | badToken
deriving DecidableEq

/-- Result of Server.Post up to the store call: a 403, or Put invoked with the
    trimmed token text. -/
inductive PostResult
  | forbidden (r : AuthFail)
  | putInvoked (tok : Str)
deriving DecidableEq

/-- Model of Server.Post's authorization chain: 403 when the header is absent,
    when it does not start with the exact lowercase scheme, or when the token
    fails to parse or verify; only then is Store.Put reached.  checkToken
    abstracts ParseToken followed by IsCorrentToken against the server secret
    and the key (its result is irrelevant to the scheme check, which
    short-circuits before it). -/
def Post (checkToken : Str → Bool) (auth : Str) : PostResult :=
  if auth.isEmpty then .forbidden .missing
  else if ¬ (strL ("bearer ")).isPrefixOf auth then .forbidden .badScheme
  else
    let tok := goTrimSpace (auth.drop (strL ("bearer ")).length)
    if ¬ checkToken tok then .forbidden .badToken
    else .putInvoked tok

end Server

/-! ## Helper lemmas about the store model -/

/-- Lowercase hexadecimal character test. -/
def isLowerHex (c : Char) : Bool :=
  (48 ≤ c.toNat && c.toNat ≤ 57) || (97 ≤ c.toNat && c.toNat ≤ 102)

theorem foldr_max_init (a : List (Nat × DirEntry)) (x : Nat) :
    a.foldr (fun e acc => max e.1 acc) x = max (maxRevL a) x := by
  induction a with
  | nil => simp [maxRevL]
  | cons e es ih => simp [maxRevL, ih, Nat.max_assoc]

theorem maxRevL_append (a b : List (Nat × DirEntry)) :
    maxRevL (a ++ b) = max (maxRevL a) (maxRevL b) := by
  unfold maxRevL
  rw [List.foldr_append]
  exact foldr_max_init a (maxRevL b)

theorem mem_le_maxRevL {es : List (Nat × DirEntry)} {p : Nat × DirEntry}
    (h : p ∈ es) : p.1 ≤ maxRevL es := by
  induction es with
  | nil => cases h
  | cons e es ih =>
    rcases List.mem_cons.mp h with h1 | h2
    · subst h1; exact Nat.le_max_left _ _
    · exact Nat.le_trans (ih h2) (Nat.le_max_right _ _)

theorem maxRevL_filter_le (es : List (Nat × DirEntry)) (pred : Nat × DirEntry → Bool) :
    maxRevL (es.filter pred) ≤ maxRevL es := by
  induction es with
  | nil => simp
  | cons e es ih =>
    by_cases hp : pred e = true
    · simp only [List.filter_cons, hp, if_true, maxRevL, List.foldr_cons]
      exact max_le_max (Nat.le_refl _) ih
    · simp only [List.filter_cons, hp, if_false, Bool.false_eq_true]
      exact Nat.le_trans ih (Nat.le_max_right _ _)

theorem maxRevL_attained (es : List (Nat × DirEntry)) :
    maxRevL es = 0 ∨ maxRevL es ∈ es.map (fun p => p.1) := by
  induction es with
  | nil => left; rfl
  | cons e es ih =>
    have hm : maxRevL (e :: es) = max e.1 (maxRevL es) := rfl
    rcases Nat.le_total e.1 (maxRevL es) with hle | hge
    · rw [hm, Nat.max_eq_right hle]
      rcases ih with h0 | hmem
      · left; exact h0
      · right; exact List.mem_cons_of_mem _ hmem
    · rw [hm, Nat.max_eq_left hge]
      right; exact List.mem_cons_self _ _

theorem maxRevL_filter_eq (es : List (Nat × DirEntry)) (pred : Nat × DirEntry → Bool)
    (hkeep : ∀ p ∈ es, p.1 = maxRevL es → pred p = true) :
    maxRevL (es.filter pred) = maxRevL es := by
  rcases maxRevL_attained es with h0 | hmem
  · exact Nat.le_antisymm (h0 ▸ maxRevL_filter_le es pred) (h0 ▸ Nat.zero_le _)
  · rcases List.mem_map.mp hmem with ⟨p, hp, hp1⟩
    have hpf : p ∈ es.filter pred := List.mem_filter.mpr ⟨hp, hkeep p hp hp1⟩
    have hple := mem_le_maxRevL hpf
    rw [hp1] at hple
    exact Nat.le_antisymm (maxRevL_filter_le es pred) hple

theorem lookupE_append_last {l : List (Nat × DirEntry)} {r : Nat} {e : DirEntry}
    (h : ∀ p ∈ l, p.1 ≠ r) : lookupE (l ++ [(r, e)]) r = some e := by
  induction l with
  | nil => simp [lookupE]
  | cons p ps ih =>
    have hp : p.1 ≠ r := h p (List.mem_cons_self _ _)
    simp only [List.cons_append, lookupE, if_neg hp]
    exact ih (fun q hq => h q (List.mem_cons_of_mem _ hq))

theorem maxRevD_getD (d : Dir) : maxRevD d = maxRevL (d.getD []) := by
  cases d <;> rfl

theorem maxRevD_some (es : List (Nat × DirEntry)) : maxRevD (some es) = maxRevL es := rfl

/-- The shape of a successful Put: the allocated revision is the previous
    maximum plus one, and the new directory is the old entries (minus any
    entry of that name, which os.Create would truncate) with the finished file
    appended. -/
theorem put_unfold (md5 : List Nat → List Nat) (dct : String → List Nat → Str)
    (now : Int) (key : String) (d : Dir) (body : List Nat) :
    LocalStore.Put md5 dct now key d body =
      (maxRevD d + 1,
       some ((d.getD []).filter (fun e => decide (e.1 ≠ maxRevD d + 1)) ++
         [(maxRevD d + 1,
           DirEntry.ok ⟨⟨key, maxRevD d + 1, dct key (body.take (min 512 body.length)),
             body.length, hex032 (md5 body), now⟩, body⟩)])) := by
  cases d with
  | none =>
    simp [LocalStore.Put, LocalStore.create, TempFile.write, TempFile.Size,
      TempFile.Hash, Latest, maxRevD]
  | some es =>
    simp [LocalStore.Put, LocalStore.create, TempFile.write, TempFile.Size,
      TempFile.Hash, Latest, maxRevD]

theorem hex032_flat_length (bs : List Nat) :
    ((bs.map byteHex).flatten).length = 2 * bs.length := by
  induction bs with
  | nil => rfl
  | cons b bs ih =>
    simp only [List.map_cons, List.flatten_cons, List.length_append, ih,
      List.length_cons]
    simp [byteHex]
    omega

theorem hex032_length {bs : List Nat} (h : bs.length = 16) :
    (hex032 bs).length = 32 := by
  unfold hex032
  rw [List.length_append, List.length_replicate, hex032_flat_length, h]

theorem hexDigitChar_lower : ∀ n < 16, isLowerHex (hexDigitChar n) = true := by decide

theorem hex032_lower (bs : List Nat) : ∀ c ∈ hex032 bs, isLowerHex c = true := by
  intro c hc
  unfold hex032 at hc
  rcases List.mem_append.mp hc with h0 | hs
  · have := List.eq_of_mem_replicate h0
    subst this; decide
  · rcases List.mem_flatten.mp hs with ⟨l, hl, hcl⟩
    rcases List.mem_map.mp hl with ⟨b, _, hb⟩
    subst hb
    unfold byteHex at hcl
    have h1 : (b % 256) / 16 < 16 := by omega
    have h2 : b % 16 < 16 := by omega
    have hcl2 : c = hexDigitChar (b % 256 / 16) ∨ c = hexDigitChar (b % 16) := by
      simpa using hcl
    rcases hcl2 with h | h
    · exact h ▸ hexDigitChar_lower _ h1
    · exact h ▸ hexDigitChar_lower _ h2

theorem put_fst (md5 : List Nat → List Nat) (dct : String → List Nat → Str)
    (now : Int) (key : String) (d : Dir) (body : List Nat) :
    (LocalStore.Put md5 dct now key d body).1 = maxRevD d + 1 := by
  rw [put_unfold]

theorem put_maxRevD (md5 : List Nat → List Nat) (dct : String → List Nat → Str)
    (now : Int) (key : String) (d : Dir) (body : List Nat) :
    maxRevD (LocalStore.Put md5 dct now key d body).2 = maxRevD d + 1 := by
  rw [put_unfold]
  rw [maxRevD_some, maxRevL_append]
  have h1 : maxRevL ((d.getD []).filter (fun e => decide (e.1 ≠ maxRevD d + 1))) ≤
      maxRevD d := by
    rw [maxRevD_getD]
    exact maxRevL_filter_le _ _
  have h2 : maxRevL [(maxRevD d + 1,
      DirEntry.ok ⟨⟨key, maxRevD d + 1, dct key (body.take (min 512 body.length)),
        body.length, hex032 (md5 body), now⟩, body⟩)] = maxRevD d + 1 := by
    simp [maxRevL]
  rw [h2]
  omega

theorem sweepNum_maxRevD (n : Int) (l : Nat) (d : Dir) (hl : l ≤ maxRevD d) :
    maxRevD (LocalStore.sweepByNum n l d) = maxRevD d := by
  unfold LocalStore.sweepByNum
  by_cases hn : n ≤ 0
  · rw [if_pos hn]
  · rw [if_neg hn]
    cases d with
    | none => rfl
    | some es =>
      simp only [maxRevD]
      apply maxRevL_filter_eq
      intro p hp hpm
      apply decide_eq_true
      have hl' : l ≤ maxRevL es := hl
      omega

theorem sweepTime_maxRevD (p now : Int) (d : Dir) :
    maxRevD (LocalStore.sweepByTime p now d) = maxRevD d := by
  unfold LocalStore.sweepByTime
  by_cases hp : p = 0
  · rw [if_pos hp]
  · rw [if_neg hp]
    cases d with
    | none => rfl
    | some es =>
      simp only [maxRevD]
      apply maxRevL_filter_eq
      intro q hq hqm
      simp [hqm]

/-- In a valid run the puts return consecutive revisions starting just above
    the directory's current maximum. -/
theorem execOps_results (md5 : List Nat → List Nat) (dct : String → List Nat → Str)
    (key : String) : ∀ (ops : List StoreOp) (d : Dir),
    ValidOps md5 dct key d ops = true →
    (execOps md5 dct key d ops).2 = List.range' (maxRevD d + 1) (countPuts ops) := by
  intro ops
  induction ops with
  | nil =>
    intro d _
    simp [execOps, countPuts]
  | cons op ops ih =>
    intro d hv
    cases op with
    | put body now =>
      have hv' : ValidOps md5 dct key (LocalStore.Put md5 dct now key d body).2 ops = true := hv
      have hres : (execOps md5 dct key d (StoreOp.put body now :: ops)).2 =
          (LocalStore.Put md5 dct now key d body).1 ::
            (execOps md5 dct key (LocalStore.Put md5 dct now key d body).2 ops).2 := rfl
      rw [hres, ih _ hv', put_fst, put_maxRevD]
      have hc : countPuts (StoreOp.put body now :: ops) = countPuts ops + 1 := by
        simp [countPuts]
      rw [hc, List.range'_succ]
    | sweepNum l num =>
      have hv2 : (decide (l ≤ maxRevD d) &&
          ValidOps md5 dct key (LocalStore.sweepByNum num l d) ops) = true := hv
      rw [Bool.and_eq_true] at hv2
      rcases hv2 with ⟨hle, hv'⟩
      have hle' : l ≤ maxRevD d := of_decide_eq_true hle
      have hres : (execOps md5 dct key d (StoreOp.sweepNum l num :: ops)).2 =
          (execOps md5 dct key (LocalStore.sweepByNum num l d) ops).2 := rfl
      rw [hres, ih _ hv', sweepNum_maxRevD num l d hle']
      have hc : countPuts (StoreOp.sweepNum l num :: ops) = countPuts ops := by
        simp [countPuts]
      rw [hc]
    | sweepTime p tnow =>
      have hv' : ValidOps md5 dct key (LocalStore.sweepByTime p tnow d) ops = true := hv
      have hres : (execOps md5 dct key d (StoreOp.sweepTime p tnow :: ops)).2 =
          (execOps md5 dct key (LocalStore.sweepByTime p tnow d) ops).2 := rfl
      rw [hres, ih _ hv', sweepTime_maxRevD]
      have hc : countPuts (StoreOp.sweepTime p tnow :: ops) = countPuts ops := by
        simp [countPuts]
      rw [hc]

/-! ## Helper lemmas about the Go string operations -/

theorem dropWhile_append_stop (p : Char → Bool) (a : Str) (c : Char) (b : Str)
    (hc : p c = false) :
    (a ++ c :: b).dropWhile p = a.dropWhile p ++ c :: b := by
  induction a with
  | nil => simp [List.dropWhile_cons, hc]
  | cons d a' ih =>
    by_cases hd : p d = true
    · simp [List.dropWhile_cons, hd, ih]
    · simp only [Bool.not_eq_true] at hd
      simp [List.dropWhile_cons, hd]

theorem dropWhile_idem (p : Char → Bool) (l : Str) :
    (l.dropWhile p).dropWhile p = l.dropWhile p := by
  induction l with
  | nil => rfl
  | cons c l' ih =>
    by_cases hc : p c = true
    · simp [List.dropWhile_cons, hc, ih]
    · simp only [Bool.not_eq_true] at hc
      simp [List.dropWhile_cons, hc]

theorem mem_of_mem_ltrim {c : Char} {l : Str} (h : c ∈ ltrim l) : c ∈ l :=
  (List.dropWhile_sublist _).mem h

theorem mem_of_mem_rtrim {c : Char} {l : Str} (h : c ∈ rtrim l) : c ∈ l := by
  unfold rtrim at h
  rw [List.mem_reverse] at h
  have := (List.dropWhile_sublist (l := l.reverse) isSpc).mem h
  rwa [List.mem_reverse] at this

theorem mem_of_mem_trim {c : Char} {l : Str} (h : c ∈ goTrimSpace l) : c ∈ l :=
  mem_of_mem_ltrim (mem_of_mem_rtrim h)

theorem ltrim_cons_not_spc (c : Char) (l : Str) (hc : isSpc c = false) :
    ltrim (c :: l) = c :: l := by
  simp [ltrim, List.dropWhile_cons, hc]

theorem ltrim_append_stop (a : Str) (c : Char) (b : Str) (hc : isSpc c = false) :
    ltrim (a ++ c :: b) = ltrim a ++ c :: b :=
  dropWhile_append_stop isSpc a c b hc

theorem rtrim_append_stop (x : Str) (c : Char) (b : Str) (hc : isSpc c = false) :
    rtrim (x ++ c :: b) = x ++ c :: rtrim b := by
  unfold rtrim
  rw [List.reverse_append, List.reverse_cons, List.append_assoc,
    List.singleton_append, dropWhile_append_stop isSpc b.reverse c x.reverse hc,
    List.reverse_append, List.reverse_cons, List.reverse_reverse]
  simp

theorem trim_comma_split (a b : Str) :
    goTrimSpace (a ++ ',' :: b) = ltrim a ++ ',' :: rtrim b := by
  unfold goTrimSpace
  rw [ltrim_append_stop a ',' b (by decide), rtrim_append_stop (ltrim a) ',' b (by decide)]

theorem ltrim_idem (l : Str) : ltrim (ltrim l) = ltrim l :=
  dropWhile_idem isSpc l

theorem ltrim_head_not_spc {c : Char} {l : Str} (h : ltrim (c :: l) = c :: l) :
    isSpc c = false := by
  by_cases hc : isSpc c = true
  · exfalso
    rw [ltrim, List.dropWhile_cons, hc] at h
    simp only [if_true] at h
    have hlen := congrArg List.length h
    have hle := (List.dropWhile_sublist (l := l) isSpc).length_le
    simp only [List.length_cons] at hlen
    omega
  · simpa using hc

theorem ltrim_rtrim_ltrim (l : Str) : ltrim (rtrim (ltrim l)) = rtrim (ltrim l) := by
  have hpre : rtrim (ltrim l) <+: ltrim l := by
    unfold rtrim
    rw [← List.reverse_suffix]
    rw [List.reverse_reverse]
    exact List.dropWhile_suffix isSpc
  cases hh : rtrim (ltrim l) with
  | nil => rfl
  | cons c z =>
    rcases hpre with ⟨t, ht⟩
    rw [hh] at ht
    have hlt : ltrim l = c :: (z ++ t) := by
      rw [← ht]
      cases l <;> simp
    have hself : ltrim (ltrim l) = ltrim l := ltrim_idem l
    rw [hlt] at hself
    have hcns : isSpc c = false := ltrim_head_not_spc hself
    exact ltrim_cons_not_spc c z hcns

theorem trim_ltrim (l : Str) : goTrimSpace (ltrim l) = goTrimSpace l := by
  unfold goTrimSpace
  rw [ltrim_idem]

theorem trim_idem (l : Str) : goTrimSpace (goTrimSpace l) = goTrimSpace l := by
  unfold goTrimSpace
  rw [ltrim_rtrim_ltrim]
  unfold rtrim
  rw [List.reverse_reverse, dropWhile_idem]

theorem trim_no_spc (l : Str) (h : ∀ c ∈ l, isSpc c = false) : goTrimSpace l = l := by
  have hl : ltrim l = l := by
    cases l with
    | nil => rfl
    | cons c l' => exact ltrim_cons_not_spc c l' (h c (List.mem_cons_self _ _))
  unfold goTrimSpace
  rw [hl]
  unfold rtrim
  cases hr : l.reverse with
  | nil =>
    have : l = [] := by simpa using congrArg List.reverse hr
    simp [this]
  | cons c r' =>
    have hcl : c ∈ l := by
      rw [← List.mem_reverse, hr]
      exact List.mem_cons_self _ _
    rw [List.dropWhile_cons, h c hcl]
    simp only [Bool.false_eq_true, if_false]
    rw [← hr, List.reverse_reverse]

theorem splitFirst_not_mem (sep : Char) (l : Str) (h : sep ∉ l) :
    splitFirst sep l = (l, none) := by
  induction l with
  | nil => rfl
  | cons c l' ih =>
    have hc : (c == sep) = false := by
      apply beq_eq_false_iff_ne.mpr
      intro he
      exact h (he ▸ List.mem_cons_self _ _)
    have hl' : sep ∉ l' := fun hm => h (List.mem_cons_of_mem _ hm)
    simp [splitFirst, hc, ih hl']

theorem splitFirst_append (sep : Char) (a b : Str) (h : sep ∉ a) :
    splitFirst sep (a ++ sep :: b) = (a, some b) := by
  induction a with
  | nil => simp [splitFirst]
  | cons c a' ih =>
    have hc : (c == sep) = false := by
      apply beq_eq_false_iff_ne.mpr
      intro he
      exact h (he ▸ List.mem_cons_self _ _)
    have ha' : sep ∉ a' := fun hm => h (List.mem_cons_of_mem _ hm)
    simp [splitFirst, hc, ih ha']

theorem digit_ne (c : Char) (hc : isDigit c = true) (x : Char)
    (hx : isDigit x = false) : (c == x) = false := by
  apply beq_eq_false_iff_ne.mpr
  intro he
  rw [he, hx] at hc
  cases hc

theorem digit_not_spc (c : Char) (hc : isDigit c = true) : isSpc c = false := by
  unfold isSpc
  rw [digit_ne c hc ' ' (by decide), digit_ne c hc '\t' (by decide),
    digit_ne c hc '\n' (by decide), digit_ne c hc '\r' (by decide),
    digit_ne c hc (Char.ofNat 11) (by decide), digit_ne c hc (Char.ofNat 12) (by decide)]
  rfl

theorem digit_ne_mem {sep : Char} (hsep : isDigit sep = false) {l : Str}
    (hl : l.all isDigit = true) : sep ∉ l := by
  intro hm
  have := List.all_eq_true.mp hl sep hm
  rw [hsep] at this
  cases this

theorem goParseInt_digits (l : Str) (hne : l ≠ []) (hd : l.all isDigit = true)
    (hb : digitsVal l ≤ 2 ^ 63 - 1) :
    goParseInt l = ((digitsVal l : Int), none) := by
  cases l with
  | nil => exact absurd rfl hne
  | cons c rest =>
    have hc : isDigit c = true := List.all_eq_true.mp hd c (List.mem_cons_self _ _)
    simp only [goParseInt, digit_ne c hc '-' (by decide),
      digit_ne c hc '+' (by decide), Bool.or_self, Bool.false_eq_true,
      if_false, List.isEmpty_cons, hd, if_true]
    rw [if_pos hb]

theorem goParseInt_neg_digits (l : Str) (hne : l ≠ []) (hd : l.all isDigit = true)
    (hb : digitsVal l ≤ 2 ^ 63) :
    goParseInt ('-' :: l) = (-(digitsVal l : Int), none) := by
  have hl : l.isEmpty = false := by
    cases l with
    | nil => exact absurd rfl hne
    | cons c r => rfl
  simp only [goParseInt, show ('-' == '-') = true from rfl, Bool.true_or, if_true,
    hl, Bool.false_eq_true, if_false, hd]
  rw [if_pos hb]

/-- Digit strings, dashes and plus signs contain no whitespace and no comma, so
    trimming is the identity on the range specs the claims quantify over. -/
theorem trim_spec_chars (l : Str)
    (h : ∀ c ∈ l, isDigit c = true ∨ c = '-') : goTrimSpace l = l := by
  apply trim_no_spc
  intro c hc
  rcases h c hc with hd | hdash
  · exact digit_not_spc c hd
  · rw [hdash]; rfl

theorem comma_not_spec (l : Str)
    (h : ∀ c ∈ l, isDigit c = true ∨ c = '-') : ',' ∉ l := by
  intro hm
  rcases h ',' hm with hd | hdash
  · cases hd
  · cases hdash

/-- Unfolding of parseRangeRequest on a header with the bytes unit. -/
theorem parse_bytes (rest : Str) :
    parseRangeRequest (strL ("bytes=") ++ rest) =
      parseSpec (goTrimSpace (splitFirst ',' (goTrimSpace rest)).1) := by
  have hne : (strL ("bytes=") ++ rest).isEmpty = false := rfl
  have hpre : (strL ("bytes=")).isPrefixOf (strL ("bytes=") ++ rest) = true := by
    rw [List.isPrefixOf_iff_prefix]
    exact List.prefix_append _ _
  unfold parseRangeRequest
  rw [hne, hpre]
  simp only [Bool.false_eq_true, if_false, not_true, if_true]
  have hdrop : (strL ("bytes=") ++ rest).drop 6 = rest := by
    rw [show (6 : Nat) = (strL ("bytes=")).length from rfl, List.drop_left]
  rw [hdrop]

theorem rangeValidate_none {r r' : RangeRequest}
    (h : rangeValidate r' = GoResult.ret (r, none)) :
    r = r' ∧ 0 ≤ r.From ∧ (r.To = 0 ∨ r.From < r.To) := by
  unfold rangeValidate at h
  by_cases hc : r'.From < 0 ∨ (r'.To ≠ 0 ∧ r'.To ≤ r'.From)
  · rw [if_pos hc] at h
    simp at h
  · rw [if_neg hc] at h
    have hr : r' = r := by
      have := h
      simp at this
      exact this
    subst hr
    push_neg at hc
    refine ⟨rfl, by omega, ?_⟩
    by_cases hz : r'.To = 0
    · left; exact hz
    · right
      have := hc.2 hz
      omega

theorem rangeValidate_invalid {r r' : RangeRequest}
    (h : rangeValidate r' = GoResult.ret (r, some RangeErr.invalidRange)) :
    r = r' ∧ ¬(0 ≤ r.From ∧ (r.To = 0 ∨ r.From < r.To)) := by
  unfold rangeValidate at h
  by_cases hc : r'.From < 0 ∨ (r'.To ≠ 0 ∧ r'.To ≤ r'.From)
  · rw [if_pos hc] at h
    have hr : r' = r := by
      have := h
      simp at this
      exact this
    subst hr
    refine ⟨rfl, ?_⟩
    rintro ⟨hf, hto⟩
    rcases hc with h1 | ⟨h2, h3⟩
    · omega
    · rcases hto with h4 | h5
      · exact h2 h4
      · omega
  · rw [if_neg hc] at h
    simp at h

theorem parseSpec_none {spec : Str} {r : RangeRequest}
    (h : parseSpec spec = GoResult.ret (r, none)) :
    0 ≤ r.From ∧ (r.To = 0 ∨ r.From < r.To) := by
  unfold parseSpec at h
  split at h
  · split at h
    · simp at h
    · split at h
      · simp at h
      · simp at h
  · split at h
    · split at h
      · exact (rangeValidate_none h).2
      · split at h
        · simp at h
        · exact (rangeValidate_none h).2
    · split at h
      · simp at h
      · split at h
        · exact (rangeValidate_none h).2
        · split at h
          · simp at h
          · exact (rangeValidate_none h).2

theorem parseSpec_invalid {spec : Str} {r : RangeRequest}
    (h : parseSpec spec = GoResult.ret (r, some RangeErr.invalidRange)) :
    ¬(0 ≤ r.From ∧ (r.To = 0 ∨ r.From < r.To)) := by
  unfold parseSpec at h
  split at h
  · split at h
    · simp at h
    · split at h
      · simp at h
      · simp at h
  · split at h
    · split at h
      · exact (rangeValidate_invalid h).2
      · split at h
        · simp at h
        · exact (rangeValidate_invalid h).2
    · split at h
      · simp at h
      · split at h
        · exact (rangeValidate_invalid h).2
        · split at h
          · simp at h
          · exact (rangeValidate_invalid h).2

/-- On a spec made of digits and dashes only, the trim and comma-cut steps are
    the identity. -/
theorem parse_bytes_spec (rest : Str)
    (h : ∀ c ∈ rest, isDigit c = true ∨ c = '-') :
    parseRangeRequest (strL ("bytes=") ++ rest) = parseSpec rest := by
  rw [parse_bytes, trim_spec_chars rest h,
    splitFirst_not_mem ',' rest (comma_not_spec rest h)]
  exact congrArg parseSpec (trim_spec_chars rest h)

theorem parseSpec_pair (sa sb : Str) (hna : sa ≠ []) (hnb : sb ≠ [])
    (hda : sa.all isDigit = true) (hdb : sb.all isDigit = true)
    (hba : digitsVal sa ≤ 2 ^ 63 - 1) (hbb : digitsVal sb ≤ 2 ^ 63 - 1) :
    parseSpec (sa ++ '-' :: sb) =
      GoResult.ret
        ({ From := (digitsVal sa : Int), To := (digitsVal sb : Int) + 1,
           Suffix := 0, Total := 0 },
         if (digitsVal sb : Int) + 1 ≤ (digitsVal sa : Int) then
           some RangeErr.invalidRange
         else none) := by
  have hsplit : splitFirst '-' (sa ++ '-' :: sb) = (sa, some sb) :=
    splitFirst_append '-' sa sb (digit_ne_mem (by decide) hda)
  have hae : sa.isEmpty = false := by
    cases sa with
    | nil => exact absurd rfl hna
    | cons c l => rfl
  have hbe : sb.isEmpty = false := by
    cases sb with
    | nil => exact absurd rfl hnb
    | cons c l => rfl
  unfold parseSpec
  rw [hsplit]
  simp only [hae, Bool.false_eq_true, if_false, goParseInt_digits sa hna hda hba,
    hbe, goParseInt_digits sb hnb hdb hbb]
  unfold rangeValidate
  dsimp only [zeroRange]
  by_cases hcmp : (digitsVal sb : Int) + 1 ≤ (digitsVal sa : Int)
  · rw [if_pos (Or.inr ⟨by omega, hcmp⟩), if_pos hcmp]
  · have hnc : ¬ ((digitsVal sa : Int) < 0 ∨
        ((digitsVal sb : Int) + 1 ≠ 0 ∧ (digitsVal sb : Int) + 1 ≤ (digitsVal sa : Int))) := by
      rintro (h1 | ⟨h2, h3⟩)
      · omega
      · exact hcmp h3
    rw [if_neg hnc, if_neg hcmp]

theorem parseSpec_open (sa : Str) (hna : sa ≠ [])
    (hda : sa.all isDigit = true) (hba : digitsVal sa ≤ 2 ^ 63 - 1) :
    parseSpec (sa ++ ['-']) =
      GoResult.ret
        ({ From := (digitsVal sa : Int), To := 0, Suffix := 0, Total := 0 }, none) := by
  have hsplit : splitFirst '-' (sa ++ '-' :: []) = (sa, some []) :=
    splitFirst_append '-' sa [] (digit_ne_mem (by decide) hda)
  have hae : sa.isEmpty = false := by
    cases sa with
    | nil => exact absurd rfl hna
    | cons c l => rfl
  unfold parseSpec
  rw [show sa ++ ['-'] = sa ++ '-' :: [] from rfl, hsplit]
  simp only [hae, Bool.false_eq_true, if_false, goParseInt_digits sa hna hda hba,
    List.isEmpty_nil, if_true]
  unfold rangeValidate
  dsimp only [zeroRange]
  have hnc : ¬ ((digitsVal sa : Int) < 0 ∨
      ((0 : Int) ≠ 0 ∧ (0 : Int) ≤ (digitsVal sa : Int))) := by
    rintro (h1 | ⟨h2, h3⟩)
    · omega
    · exact h2 rfl
  rw [if_neg hnc]

theorem parseSpec_suffix (sn : Str) (hn : sn ≠ [])
    (hd : sn.all isDigit = true) (hb : digitsVal sn ≤ 2 ^ 63 - 1) :
    parseSpec ('-' :: sn) =
      GoResult.ret
        ({ From := 0, To := 0, Suffix := (digitsVal sn : Int), Total := 0 }, none) := by
  have hne : sn.isEmpty = false := by
    cases sn with
    | nil => exact absurd rfl hn
    | cons c l => rfl
  unfold parseSpec
  rw [show splitFirst '-' ('-' :: sn) = ([], some sn) from rfl]
  simp only [List.isEmpty_nil, if_true, hne, Bool.false_eq_true, if_false,
    goParseInt_digits sn hn hd hb]
  unfold rangeValidate
  dsimp only [zeroRange]
  have hnc : ¬ ((0 : Int) < 0 ∨ ((0 : Int) ≠ 0 ∧ (0 : Int) ≤ (0 : Int))) := by
    rintro (h1 | ⟨h2, h3⟩)
    · omega
    · exact h2 rfl
  rw [if_neg hnc]

theorem parseSpec_negsuffix (sn : Str) (hn : sn ≠ [])
    (hd : sn.all isDigit = true) (hb : digitsVal sn ≤ 2 ^ 63) :
    parseSpec ('-' :: '-' :: sn) =
      GoResult.ret
        ({ From := 0, To := 0, Suffix := -(digitsVal sn : Int), Total := 0 }, none) := by
  have hne : ('-' :: sn).isEmpty = false := rfl
  unfold parseSpec
  rw [show splitFirst '-' ('-' :: '-' :: sn) = ([], some ('-' :: sn)) from rfl]
  simp only [List.isEmpty_nil, if_true, hne, Bool.false_eq_true, if_false,
    goParseInt_neg_digits sn hn hd hb]
  unfold rangeValidate
  dsimp only [zeroRange]
  have hnc : ¬ ((0 : Int) < 0 ∨ ((0 : Int) ≠ 0 ∧ (0 : Int) ≤ (0 : Int))) := by
    rintro (h1 | ⟨h2, h3⟩)
    · omega
    · exact h2 rfl
  rw [if_neg hnc]

theorem parse_first_comma (a b : Str) (h : ',' ∉ a) :
    parseRangeRequest (strL ("bytes=") ++ a ++ ',' :: b) =
      parseRangeRequest (strL ("bytes=") ++ a) := by
  rw [List.append_assoc, parse_bytes, parse_bytes]
  have h1 : goTrimSpace (a ++ ',' :: b) = ltrim a ++ ',' :: rtrim b :=
    trim_comma_split a b
  have h2 : splitFirst ',' (ltrim a ++ ',' :: rtrim b) = (ltrim a, some (rtrim b)) :=
    splitFirst_append ',' (ltrim a) (rtrim b) (fun hm => h (mem_of_mem_ltrim hm))
  have h3 : splitFirst ',' (goTrimSpace a) = (goTrimSpace a, none) :=
    splitFirst_not_mem ',' (goTrimSpace a) (fun hm => h (mem_of_mem_trim hm))
  rw [h1, h2, h3]
  exact congrArg parseSpec (by rw [trim_ltrim, trim_idem])

theorem parse_unit_err (h : Str) (hne : h ≠ [])
    (hp : (strL ("bytes=")).isPrefixOf h = false) :
    parseRangeRequest h = GoResult.ret (zeroRange, some RangeErr.invalidRangeType) := by
  have he : h.isEmpty = false := by
    cases h with
    | nil => exact absurd rfl hne
    | cons c l => rfl
  unfold parseRangeRequest
  rw [he, hp]
  simp

/-! ## Claim theorems -/

/-- C1: for every key, body and prior directory state, a successful Put
    returning revision N leaves Latest answering N, and Get of (key, N) yields
    a reader whose contents are the body byte for byte, with metadata whose
    size is the body length and whose hash is the %032x rendering of the md5
    digest of the body: 32 characters, all lowercase hexadecimal (md5 is the
    external crypto digest, a parameter with 16-byte output; the bytes fed to
    it, the staging through the temp writer, and the formatting are the
    embedded repository code). -/
theorem c1_put_get_round_trip (md5 : List Nat → List Nat)
    (dct : String → List Nat → Str) (hm : ∀ x, (md5 x).length = 16)
    (now : Int) (key : String) (d : Dir) (body : List Nat) :
    Latest (LocalStore.Put md5 dct now key d body).2 =
      Except.ok (LocalStore.Put md5 dct now key d body).1 ∧
    ∃ f m, LocalStore.Get (LocalStore.Put md5 dct now key d body).2
        (LocalStore.Put md5 dct now key d body).1 = LocalStore.GetResult.ok f m ∧
      f.content = body ∧ m.Size = body.length ∧ m.Hash = hex032 (md5 body) ∧
      m.Hash.length = 32 ∧ ∀ c ∈ m.Hash, isLowerHex c = true := by
  rw [put_unfold]
  set N := maxRevD d + 1 with hN
  set esF := (d.getD []).filter (fun e => decide (e.1 ≠ N)) with hesF
  set file : GoFile :=
    ⟨⟨key, N, dct key (body.take (min 512 body.length)),
      body.length, hex032 (md5 body), now⟩, body⟩ with hfile
  have hmax : maxRevL (esF ++ [(N, DirEntry.ok file)]) = N := by
    rw [maxRevL_append]
    have h1 : maxRevL esF ≤ maxRevD d := by
      rw [maxRevD_getD]
      exact maxRevL_filter_le _ _
    have h2 : maxRevL [(N, DirEntry.ok file)] = N := by simp [maxRevL]
    rw [h2]
    omega
  have hlook : lookupE (esF ++ [(N, DirEntry.ok file)]) N = some (DirEntry.ok file) := by
    apply lookupE_append_last
    intro p hp
    have := List.of_mem_filter hp
    simpa using this
  constructor
  · simp [Latest, hmax]
  · refine ⟨file, file.meta, ?_, rfl, rfl, rfl, ?_, ?_⟩
    · simp [LocalStore.Get, openFile, hlook]
    · exact hex032_length (hm body)
    · exact hex032_lower (md5 body)

/-- Witness for C1 at a concrete digest, content-type detector, directory and
    body. -/
theorem c1_put_get_round_trip_witness :
    (∀ x : List Nat, ((fun _ : List Nat => List.replicate 16 0) x).length = 16) ∧
    (Latest (LocalStore.Put (fun _ => List.replicate 16 0) (fun _ _ => []) 5 ("k")
        (some [(1, DirEntry.ok ⟨emptyMeta, [9]⟩)]) [1, 2, 3]).2 =
      Except.ok (LocalStore.Put (fun _ => List.replicate 16 0) (fun _ _ => []) 5 ("k")
        (some [(1, DirEntry.ok ⟨emptyMeta, [9]⟩)]) [1, 2, 3]).1 ∧
    ∃ f m, LocalStore.Get (LocalStore.Put (fun _ => List.replicate 16 0) (fun _ _ => []) 5 ("k")
          (some [(1, DirEntry.ok ⟨emptyMeta, [9]⟩)]) [1, 2, 3]).2
        (LocalStore.Put (fun _ => List.replicate 16 0) (fun _ _ => []) 5 ("k")
          (some [(1, DirEntry.ok ⟨emptyMeta, [9]⟩)]) [1, 2, 3]).1 = LocalStore.GetResult.ok f m ∧
      f.content = [1, 2, 3] ∧ m.Size = [1, 2, 3].length ∧
      m.Hash = hex032 ((fun _ : List Nat => List.replicate 16 0) [1, 2, 3]) ∧
      m.Hash.length = 32 ∧ ∀ c ∈ m.Hash, isLowerHex c = true) :=
  ⟨fun x => by simp,
   c1_put_get_round_trip (fun _ => List.replicate 16 0) (fun _ _ => [])
     (fun x => by simp) 5 ("k") (some [(1, DirEntry.ok ⟨emptyMeta, [9]⟩)]) [1, 2, 3]⟩

/-- C2: starting from an empty store for a key, a valid run of operations on
    that key (any interleaving of uploads, the count-based sweeps they spawn,
    each carrying a latest argument some earlier Put returned, and age-based
    sweeper ticks) makes the successive Puts return exactly the revisions
    1, 2, ..., n in order: the allocator always answers the current maximum
    plus one and no sweep ever changes the maximum. -/
theorem c2_put_revisions_sequential (md5 : List Nat → List Nat)
    (dct : String → List Nat → Str) (key : String) (ops : List StoreOp)
    (hv : ValidOps md5 dct key none ops = true) :
    (execOps md5 dct key none ops).2 = List.range' 1 (countPuts ops) :=
  execOps_results md5 dct key ops none hv

/-- Witness for C2 on a concrete run: three uploads interleaved with a
    count-based sweep and an age-based sweeper tick return revisions 1, 2, 3. -/
theorem c2_put_revisions_sequential_witness :
    ValidOps (fun _ => List.replicate 16 0) (fun _ _ => []) ("k") none
      [StoreOp.put [1] 0, StoreOp.sweepNum 1 2, StoreOp.put [2, 3] 5,
       StoreOp.sweepTime 10 99, StoreOp.put [] 7] = true ∧
    (execOps (fun _ => List.replicate 16 0) (fun _ _ => []) ("k") none
      [StoreOp.put [1] 0, StoreOp.sweepNum 1 2, StoreOp.put [2, 3] 5,
       StoreOp.sweepTime 10 99, StoreOp.put [] 7]).2 =
      List.range' 1 (countPuts
        [StoreOp.put [1] 0, StoreOp.sweepNum 1 2, StoreOp.put [2, 3] 5,
         StoreOp.sweepTime 10 99, StoreOp.put [] 7]) :=
  ⟨by decide,
   c2_put_revisions_sequential (fun _ => List.replicate 16 0) (fun _ _ => []) ("k")
     [StoreOp.put [1] 0, StoreOp.sweepNum 1 2, StoreOp.put [2, 3] 5,
      StoreOp.sweepTime 10 99, StoreOp.put [] 7] (by decide)⟩

theorem padTo_of_length {l : List Nat} {n : Nat} (h : l.length = n) :
    padTo n l = l := by
  unfold padTo
  rw [← h, List.take_length]
  simp

theorem tokenSalt_new (H : List Nat → List Nat) (s : List Nat) (key : String)
    (salt : List Nat) (hsalt : salt.length = 4) :
    tokenSalt (NewTokenWithSalt H s key salt) = salt := by
  unfold tokenSalt NewTokenWithSalt
  rw [padTo_of_length hsalt]
  have h1 : salt.take 4 = salt := by
    rw [← hsalt]
    exact List.take_length salt
  have h2 : (4 : Nat) - salt.length = 0 := by rw [hsalt]
  rw [List.take_append_eq_append_take, h1, h2]
  simp

theorem ntws_eq_iff (H : List Nat → List Nat) (s salt : List Nat)
    (hlen : ∀ x, (H x).length = 28) (k1 k2 : String) :
    NewTokenWithSalt H s k1 salt = NewTokenWithSalt H s k2 salt ↔
      H (s ++ salt ++ keyBytes k1) = H (s ++ salt ++ keyBytes k2) := by
  unfold NewTokenWithSalt
  rw [padTo_of_length (hlen (s ++ salt ++ keyBytes k1)),
    padTo_of_length (hlen (s ++ salt ++ keyBytes k2))]
  constructor
  · intro h
    exact List.append_cancel_left h
  · intro h
    rw [h]

/-- C3: a token minted for a key verifies for that key; a token minted for any
    slash-terminated prefix of the key verifies for the key; and a token minted
    for any other key does not verify, provided the digest does not collide
    between that other key and the keys actually checked (the digest is the
    external SHA-224, a parameter with 28-byte output; its collision-freeness
    on the finitely many checked inputs is the stated hypothesis, satisfied by
    the concrete witness below). -/
theorem c3_token_verification (H : List Nat → List Nat) (s salt : List Nat)
    (K : String) (hsalt : salt.length = 4) (hlen : ∀ x, (H x).length = 28) :
    IsCorrentToken H s (NewTokenWithSalt H s K salt) K = true ∧
    (∀ P ∈ KeyPrefixes K,
      IsCorrentToken H s (NewTokenWithSalt H s P salt) K = true) ∧
    (∀ K' : String, K' ≠ K → K' ∉ KeyPrefixes K →
      (∀ P ∈ K :: KeyPrefixes K,
        H (s ++ salt ++ keyBytes P) ≠ H (s ++ salt ++ keyBytes K')) →
      IsCorrentToken H s (NewTokenWithSalt H s K' salt) K = false) := by
  refine ⟨?_, ?_, ?_⟩
  · unfold IsCorrentToken
    rw [tokenSalt_new H s K salt hsalt]
    simp
  · intro P hP
    unfold IsCorrentToken
    rw [tokenSalt_new H s P salt hsalt]
    have hany : (KeyPrefixes K).any
        (fun k => NewTokenWithSalt H s k salt == NewTokenWithSalt H s P salt) = true :=
      List.any_eq_true.mpr ⟨P, hP, beq_self_eq_true _⟩
    rw [hany, Bool.or_true]
  · intro K' hne hnp hnc
    unfold IsCorrentToken
    rw [tokenSalt_new H s K' salt hsalt]
    apply Bool.or_eq_false_iff.mpr
    constructor
    · apply beq_eq_false_iff_ne.mpr
      intro he
      exact hnc K (List.mem_cons_self _ _) ((ntws_eq_iff H s salt hlen K K').mp he)
    · apply List.any_eq_false.mpr
      intro P hP he
      exact hnc P (List.mem_cons_of_mem _ hP)
        ((ntws_eq_iff H s salt hlen P K').mp (eq_of_beq he))

/-- Witness for C3 at a concrete 28-byte digest (first byte the input length,
    collision-free on the three checked inputs), secret, salt, key a/b and
    foreign key c: the exact token and the prefix token for a/ verify, the
    token for c does not. -/
theorem c3_token_verification_witness :
    ([9, 9, 9, 9] : List Nat).length = 4 ∧
    IsCorrentToken (fun l => l.length % 256 :: List.replicate 27 0) [1, 2]
      (NewTokenWithSalt (fun l => l.length % 256 :: List.replicate 27 0) [1, 2]
        ("a/b") [9, 9, 9, 9]) ("a/b") = true ∧
    IsCorrentToken (fun l => l.length % 256 :: List.replicate 27 0) [1, 2]
      (NewTokenWithSalt (fun l => l.length % 256 :: List.replicate 27 0) [1, 2]
        ("a/") [9, 9, 9, 9]) ("a/b") = true ∧
    IsCorrentToken (fun l => l.length % 256 :: List.replicate 27 0) [1, 2]
      (NewTokenWithSalt (fun l => l.length % 256 :: List.replicate 27 0) [1, 2]
        ("c") [9, 9, 9, 9]) ("a/b") = false :=
  ⟨by decide,
   (c3_token_verification (fun l => l.length % 256 :: List.replicate 27 0) [1, 2]
     [9, 9, 9, 9] ("a/b") (by decide) (fun _ => rfl)).1,
   (c3_token_verification (fun l => l.length % 256 :: List.replicate 27 0) [1, 2]
     [9, 9, 9, 9] ("a/b") (by decide) (fun _ => rfl)).2.1 ("a/") (by decide),
   (c3_token_verification (fun l => l.length % 256 :: List.replicate 27 0) [1, 2]
     [9, 9, 9, 9] ("a/b") (by decide) (fun _ => rfl)).2.2 ("c") (by decide) (by decide)
     (by decide)⟩

/-- C4: with a positive retention count num, after a Put that returns revision
    N the count-based sweep it spawns removes every revision at most N minus
    num and keeps revision N's file; moreover the count-based sweep never
    removes the current maximum revision as long as its latest argument is at
    most that maximum (true of every sweep the server spawns, whose argument is
    a revision Put previously returned), and the age-based sweep never removes
    the current maximum revision at all. -/
theorem c4_sweep_retention (md5 : List Nat → List Nat)
    (dct : String → List Nat → Str) (now : Int) (key : String) (num : Int)
    (hnum : 0 < num) (d : Dir) (body : List Nat) :
    (∀ r ∈ revs (LocalStore.sweepByNum num (LocalStore.Put md5 dct now key d body).1
        (LocalStore.Put md5 dct now key d body).2),
      ((LocalStore.Put md5 dct now key d body).1 : Int) - num < (r : Int)) ∧
    lookupD (LocalStore.sweepByNum num (LocalStore.Put md5 dct now key d body).1
        (LocalStore.Put md5 dct now key d body).2)
        (LocalStore.Put md5 dct now key d body).1 =
      lookupD (LocalStore.Put md5 dct now key d body).2
        (LocalStore.Put md5 dct now key d body).1 ∧
    (LocalStore.Put md5 dct now key d body).1 ∈
      revs (LocalStore.sweepByNum num (LocalStore.Put md5 dct now key d body).1
        (LocalStore.Put md5 dct now key d body).2) ∧
    (∀ (e : Dir) (l : Nat) (n : Int), l ≤ maxRevD e → maxRevD e ∈ revs e →
      maxRevD e ∈ revs (LocalStore.sweepByNum n l e)) ∧
    (∀ (e : Dir) (p tnow : Int), maxRevD e ∈ revs e →
      maxRevD e ∈ revs (LocalStore.sweepByTime p tnow e)) := by
  have hnotle : ¬ num ≤ 0 := by omega
  rw [put_unfold]
  set N := maxRevD d + 1 with hN
  set esF := (d.getD []).filter (fun e => decide (e.1 ≠ N)) with hesF
  set file : GoFile :=
    ⟨⟨key, N, dct key (body.take (min 512 body.length)),
      body.length, hex032 (md5 body), now⟩, body⟩ with hfile
  set keep : Nat × DirEntry → Bool :=
    (fun e => decide (¬ ((e.1 : Int) ≤ (N : Int) - num))) with hkeep
  have hsweep : LocalStore.sweepByNum num N (some (esF ++ [(N, DirEntry.ok file)])) =
      some ((esF ++ [(N, DirEntry.ok file)]).filter keep) := by
    unfold LocalStore.sweepByNum
    rw [if_neg hnotle, hkeep]
  have hkeepN : keep (N, DirEntry.ok file) = true := by
    simp [hkeep]
    omega
  refine ⟨?_, ?_, ?_, ?_, ?_⟩
  · intro r hr
    rw [hsweep] at hr
    rcases List.mem_map.mp hr with ⟨p, hp, hp1⟩
    have hk := List.of_mem_filter hp
    rw [hkeep] at hk
    have := of_decide_eq_true hk
    omega
  · rw [hsweep]
    rw [List.filter_append]
    have hfN : ([(N, DirEntry.ok file)].filter keep) = [(N, DirEntry.ok file)] := by
      simp [hkeepN]
    rw [hfN]
    unfold lookupD
    simp only [Option.getD_some]
    have hA : lookupE (esF.filter keep ++ [(N, DirEntry.ok file)]) N =
        some (DirEntry.ok file) := by
      apply lookupE_append_last
      intro p hp
      have hpF := List.mem_of_mem_filter hp
      have := List.of_mem_filter hpF
      simpa using this
    have hB : lookupE (esF ++ [(N, DirEntry.ok file)]) N = some (DirEntry.ok file) := by
      apply lookupE_append_last
      intro p hp
      have := List.of_mem_filter hp
      simpa using this
    rw [hA, hB]
  · rw [hsweep]
    unfold revs
    simp only [Option.getD_some]
    apply List.mem_map.mpr
    refine ⟨(N, DirEntry.ok file), ?_, rfl⟩
    apply List.mem_filter.mpr
    exact ⟨List.mem_append_right _ (List.mem_singleton.mpr rfl), hkeepN⟩
  · intro e l n hl hmem
    unfold LocalStore.sweepByNum
    by_cases hn : n ≤ 0
    · simp [hn, hmem]
    · cases e with
      | none => simpa using hmem
      | some es =>
        simp only [if_neg hn]
        unfold revs at hmem ⊢
        simp only [Option.getD_some] at hmem ⊢
        rcases List.mem_map.mp hmem with ⟨p, hp, hp1⟩
        apply List.mem_map.mpr
        refine ⟨p, List.mem_filter.mpr ⟨hp, ?_⟩, hp1⟩
        have hml : maxRevD (some es) = maxRevL es := rfl
        rw [hml] at hl hp1
        apply decide_eq_true
        rw [hp1]
        omega
  · intro e p tnow hmem
    unfold LocalStore.sweepByTime
    by_cases hp0 : p = 0
    · simp [hp0, hmem]
    · cases e with
      | none => simpa using hmem
      | some es =>
        simp only [if_neg hp0]
        unfold revs at hmem ⊢
        simp only [Option.getD_some] at hmem ⊢
        rcases List.mem_map.mp hmem with ⟨q, hq, hq1⟩
        apply List.mem_map.mpr
        refine ⟨q, List.mem_filter.mpr ⟨hq, ?_⟩, hq1⟩
        have hml : maxRevD (some es) = maxRevL es := rfl
        rw [hml] at hq1
        simp [hq1]

/-- Witness for C4 at a concrete store state: three revisions of one key with
    retention count two. -/
theorem c4_sweep_retention_witness :
    (0 : Int) < 2 ∧
    (LocalStore.Put (fun _ => []) (fun _ _ => []) 0 ("k")
        (some [(1, DirEntry.ok ⟨emptyMeta, []⟩), (2, DirEntry.ok ⟨emptyMeta, []⟩)]) [7]).1 ∈
      revs (LocalStore.sweepByNum 2
        (LocalStore.Put (fun _ => []) (fun _ _ => []) 0 ("k")
          (some [(1, DirEntry.ok ⟨emptyMeta, []⟩), (2, DirEntry.ok ⟨emptyMeta, []⟩)]) [7]).1
        (LocalStore.Put (fun _ => []) (fun _ _ => []) 0 ("k")
          (some [(1, DirEntry.ok ⟨emptyMeta, []⟩), (2, DirEntry.ok ⟨emptyMeta, []⟩)]) [7]).2) :=
  ⟨by decide,
   (c4_sweep_retention (fun _ => []) (fun _ _ => []) 0 ("k") 2 (by decide)
     (some [(1, DirEntry.ok ⟨emptyMeta, []⟩), (2, DirEntry.ok ⟨emptyMeta, []⟩)]) [7]).2.2.1⟩

theorem size_to_pos (a b T : Int) (hb : b ≠ 0) :
    RangeRequest.Size { From := a, To := b, Suffix := 0, Total := T } = b - a := by
  unfold RangeRequest.Size
  dsimp only
  rw [if_neg (by omega : ¬ (0 : Int) > 0),
    show ((b == 0) = false) from beq_eq_false_iff_ne.mpr hb]
  simp

theorem size_to_zero (a T : Int) :
    RangeRequest.Size { From := a, To := 0, Suffix := 0, Total := T } = T - a := by
  unfold RangeRequest.Size
  dsimp only
  rw [if_neg (by omega : ¬ (0 : Int) > 0)]
  simp

theorem size_suffix_pos (n T : Int) (hn : 0 < n) :
    RangeRequest.Size { From := 0, To := 0, Suffix := n, Total := T } = n := by
  unfold RangeRequest.Size
  dsimp only
  rw [if_pos hn]

theorem size_suffix_nonpos (n T : Int) (hn : n ≤ 0) :
    RangeRequest.Size { From := 0, To := 0, Suffix := n, Total := T } = T := by
  unfold RangeRequest.Size
  dsimp only
  rw [if_neg (by omega : ¬ n > 0)]
  simp

/-- C5: behavior of parseRangeRequest over its documented input shapes, with
    nonnegative integers rendered as decimal digit strings within the int64
    range that Go strconv.ParseInt accepts.  An empty header is the zero range
    with Size 0; bytes=A-B gives From A, To B plus one, Suffix 0 (rejected as
    invalid exactly when the resulting To does not exceed From, per the final
    validation) and Size To minus From; bytes=A- gives From A, To 0 and, once
    Total is set, Size Total minus A; bytes=-N gives Suffix N with Size N when
    N is positive and Size 0 at the zero range when N is zero; only the spec
    before the first comma matters; any unit other than bytes= is the
    unsupported-range-unit error; and a returned range is error-free exactly
    when From is nonnegative and To is zero or greater than From. -/
theorem c5_parse_range_request :
    (parseRangeRequest [] = GoResult.ret (zeroRange, none) ∧
      zeroRange.Size = 0) ∧
    (∀ sa sb : Str, sa ≠ [] → sb ≠ [] → sa.all isDigit = true →
      sb.all isDigit = true → digitsVal sa ≤ 2 ^ 63 - 1 →
      digitsVal sb ≤ 2 ^ 63 - 1 →
      parseRangeRequest (strL ("bytes=") ++ (sa ++ '-' :: sb)) =
        GoResult.ret
          ({ From := (digitsVal sa : Int), To := (digitsVal sb : Int) + 1,
             Suffix := 0, Total := 0 },
           if (digitsVal sb : Int) + 1 ≤ (digitsVal sa : Int) then
             some RangeErr.invalidRange
           else none) ∧
      RangeRequest.Size
          { From := (digitsVal sa : Int), To := (digitsVal sb : Int) + 1,
            Suffix := 0, Total := 0 } =
        (digitsVal sb : Int) + 1 - digitsVal sa) ∧
    (∀ sa : Str, sa ≠ [] → sa.all isDigit = true → digitsVal sa ≤ 2 ^ 63 - 1 →
      parseRangeRequest (strL ("bytes=") ++ (sa ++ ['-'])) =
        GoResult.ret
          ({ From := (digitsVal sa : Int), To := 0, Suffix := 0, Total := 0 }, none) ∧
      ∀ T : Int,
        RangeRequest.Size
            { From := (digitsVal sa : Int), To := 0, Suffix := 0, Total := T } =
          T - digitsVal sa) ∧
    (∀ sn : Str, sn ≠ [] → sn.all isDigit = true → digitsVal sn ≤ 2 ^ 63 - 1 →
      parseRangeRequest (strL ("bytes=") ++ '-' :: sn) =
        GoResult.ret
          ({ From := 0, To := 0, Suffix := (digitsVal sn : Int), Total := 0 }, none) ∧
      (0 < digitsVal sn → ∀ T : Int,
        RangeRequest.Size
            { From := 0, To := 0, Suffix := (digitsVal sn : Int), Total := T } =
          digitsVal sn) ∧
      (digitsVal sn = 0 → zeroRange.Size = 0)) ∧
    (∀ a b : Str, ',' ∉ a →
      parseRangeRequest (strL ("bytes=") ++ a ++ ',' :: b) =
        parseRangeRequest (strL ("bytes=") ++ a)) ∧
    (∀ h : Str, h ≠ [] → (strL ("bytes=")).isPrefixOf h = false →
      parseRangeRequest h = GoResult.ret (zeroRange, some RangeErr.invalidRangeType)) ∧
    (∀ (h : Str) (r : RangeRequest),
      (parseRangeRequest h = GoResult.ret (r, none) →
        0 ≤ r.From ∧ (r.To = 0 ∨ r.From < r.To)) ∧
      (parseRangeRequest h = GoResult.ret (r, some RangeErr.invalidRange) →
        ¬(0 ≤ r.From ∧ (r.To = 0 ∨ r.From < r.To)))) := by
  refine ⟨⟨rfl, by decide⟩, ?_, ?_, ?_, ?_, ?_, ?_⟩
  · intro sa sb hna hnb hda hdb hba hbb
    have hch : ∀ c ∈ sa ++ '-' :: sb, isDigit c = true ∨ c = '-' := by
      intro c hc
      rcases List.mem_append.mp hc with h1 | h2
      · exact Or.inl (List.all_eq_true.mp hda c h1)
      · rcases List.mem_cons.mp h2 with h3 | h4
        · exact Or.inr h3
        · exact Or.inl (List.all_eq_true.mp hdb c h4)
    rw [parse_bytes_spec _ hch, parseSpec_pair sa sb hna hnb hda hdb hba hbb]
    exact ⟨rfl, size_to_pos _ _ _ (by omega)⟩
  · intro sa hna hda hba
    have hch : ∀ c ∈ sa ++ ['-'], isDigit c = true ∨ c = '-' := by
      intro c hc
      rcases List.mem_append.mp hc with h1 | h2
      · exact Or.inl (List.all_eq_true.mp hda c h1)
      · exact Or.inr (List.mem_singleton.mp h2)
    rw [parse_bytes_spec _ hch, parseSpec_open sa hna hda hba]
    exact ⟨rfl, fun T => size_to_zero _ T⟩
  · intro sn hn hd hb
    have hch : ∀ c ∈ '-' :: sn, isDigit c = true ∨ c = '-' := by
      intro c hc
      rcases List.mem_cons.mp hc with h1 | h2
      · exact Or.inr h1
      · exact Or.inl (List.all_eq_true.mp hd c h2)
    rw [parse_bytes_spec _ hch, parseSpec_suffix sn hn hd hb]
    exact ⟨rfl, fun hpos T => size_suffix_pos _ T (by omega), fun _ => by decide⟩
  · exact parse_first_comma
  · exact parse_unit_err
  · intro h r
    constructor
    · intro hh
      unfold parseRangeRequest at hh
      split at hh
      · have : zeroRange = r := by
          simpa using hh
        subst this
        decide
      · split at hh
        · simp at hh
        · exact parseSpec_none hh
    · intro hh
      unfold parseRangeRequest at hh
      split at hh
      · simp at hh
      · split at hh
        · simp at hh
        · exact parseSpec_invalid hh

/-- Witness for C5 at the spec table's concrete headers. -/
theorem c5_parse_range_request_witness :
    (strL ("10") ≠ [] ∧ (strL ("10")).all isDigit = true) ∧
    parseRangeRequest (strL ("bytes=") ++ (strL ("10") ++ '-' :: strL ("42"))) =
      GoResult.ret
        ({ From := (digitsVal (strL ("10")) : Int),
           To := (digitsVal (strL ("42")) : Int) + 1, Suffix := 0, Total := 0 },
         if (digitsVal (strL ("42")) : Int) + 1 ≤ (digitsVal (strL ("10")) : Int) then
           some RangeErr.invalidRange
         else none) ∧
    parseRangeRequest (strL ("bytes=") ++ strL ("3-5") ++ ',' :: strL ("10-18")) =
      parseRangeRequest (strL ("bytes=") ++ strL ("3-5")) ∧
    parseRangeRequest (strL ("chunk=0-100")) =
      GoResult.ret (zeroRange, some RangeErr.invalidRangeType) :=
  ⟨⟨by decide, by decide⟩,
   (c5_parse_range_request.2.1 (strL ("10")) (strL ("42")) (by decide) (by decide)
     (by decide) (by decide) (by decide) (by decide)).1,
   c5_parse_range_request.2.2.2.2.1 (strL ("3-5")) (strL ("10-18")) (by decide),
   c5_parse_range_request.2.2.2.2.2.1 (strL ("chunk=0-100")) (by decide) (by decide)⟩

/-- C10: parseRangeRequest does not validate the suffix field.  For every
    positive integer N (as a nonempty digit string in range), the header made
    of the bytes unit followed by two dashes and N parses without error into
    From 0, To 0 and the negative Suffix, Requested() holds, and Size() returns
    Total, the full length, instead of the input being rejected as an invalid
    range. -/
theorem c10_negative_suffix_accepted (sn : Str) (hn : sn ≠ [])
    (hd : sn.all isDigit = true) (hpos : 0 < digitsVal sn)
    (hb : digitsVal sn ≤ 2 ^ 63) :
    parseRangeRequest (strL ("bytes=--") ++ sn) =
      GoResult.ret
        ({ From := 0, To := 0, Suffix := -(digitsVal sn : Int), Total := 0 }, none) ∧
    RangeRequest.Requested
      { From := 0, To := 0, Suffix := -(digitsVal sn : Int), Total := 0 } = true ∧
    ∀ T : Int,
      RangeRequest.Size
        { From := 0, To := 0, Suffix := -(digitsVal sn : Int), Total := T } = T := by
  have heq : strL ("bytes=--") ++ sn = strL ("bytes=") ++ ('-' :: '-' :: sn) := rfl
  have hch : ∀ c ∈ '-' :: '-' :: sn, isDigit c = true ∨ c = '-' := by
    intro c hc
    rcases List.mem_cons.mp hc with h1 | h2
    · exact Or.inr h1
    · rcases List.mem_cons.mp h2 with h3 | h4
      · exact Or.inr h3
      · exact Or.inl (List.all_eq_true.mp hd c h4)
  refine ⟨?_, ?_, fun T => size_suffix_nonpos _ T (by omega)⟩
  · rw [heq, parse_bytes_spec _ hch, parseSpec_negsuffix sn hn hd hb]
  · unfold RangeRequest.Requested
    dsimp only
    rw [show ((-(digitsVal sn : Int) != 0) = true) from bne_iff_ne.mpr (by omega)]
    simp

/-- Witness for C10 at the concrete header with suffix minus five. -/
theorem c10_negative_suffix_accepted_witness :
    (strL ("5") ≠ [] ∧ 0 < digitsVal (strL ("5"))) ∧
    parseRangeRequest (strL ("bytes=--") ++ strL ("5")) =
      GoResult.ret
        ({ From := 0, To := 0, Suffix := -(digitsVal (strL ("5")) : Int),
           Total := 0 }, none) :=
  ⟨⟨by decide, by decide⟩,
   (c10_negative_suffix_accepted (strL ("5")) (by decide) (by decide) (by decide)
     (by decide)).1⟩

/-- C6: the claim says every error from Latest, Metadata and Get is a sentinel
    or the underlying error propagated verbatim, and in particular that
    Metadata never returns a nil error with empty metadata when the open fails
    for a reason other than non-existence.  The code does exactly that: when
    opening revision 1 fails with a non-NotExist error (modelled code 5),
    LocalStore.Metadata returns success carrying the zero Metadata, because
    store.go line 176 returns the zero value with a nil error instead of the
    open error.  This theorem evaluates the embedded code at that failing
    input. -/
theorem c6_metadata_swallows_open_error :
    LocalStore.Metadata (some [(1, DirEntry.bad 5)]) 1 = Except.ok emptyMeta := rfl

/-- C7: the claim says that when the key directory exists and the requested
    revision's file is absent with no strictly higher revision present, Get
    returns the no-such-artifact error and no reader.  The code instead falls
    through the error analysis without returning (store.go lines 184-193 handle
    NotExist only for err-from-Latest and rev-below-latest) and dereferences the
    nil reader in f.Metadata(): a runtime panic.  This theorem evaluates the
    embedded code at such an input: directory containing only revision 1,
    Get of revision 2. -/
theorem c7_get_panics_on_missing_high_revision :
    LocalStore.Get (some [(1, DirEntry.ok ⟨emptyMeta, []⟩)]) 2 =
      LocalStore.GetResult.panic := rfl

/-- C8 counterexample: the claim says a POST whose path is the bare slash (an
    empty key) receives 405 Method Not Allowed; in ServeHTTP the empty-key
    check answers 404 before the method switch, so the response is not 405. -/
theorem c8_post_on_root_not_405 :
    Server.ServeHTTP (strL ("POST")) (strL ("/")) ≠
      ServeOutcome.methodNotAllowed405 := by decide

/-- C8 amended: every request (POST included) whose path trims to an empty key
    receives 404 Not Found; 405 is reserved for unknown methods on a non-empty
    key. -/
theorem c8_empty_key_is_404 (method path : Str)
    (h : (path.dropWhile (fun c => c == '/')).isEmpty = true) :
    Server.ServeHTTP method path = ServeOutcome.notFound404 := by
  simp only [Server.ServeHTTP, h, if_true]

/-- Witness for the amended C8 theorem at the concrete request POST on the bare
    slash path. -/
theorem c8_empty_key_is_404_witness :
    ((strL ("/")).dropWhile (fun c => c == '/')).isEmpty = true ∧
      Server.ServeHTTP (strL ("POST")) (strL ("/")) = ServeOutcome.notFound404 :=
  ⟨by decide, c8_empty_key_is_404 (strL ("POST")) (strL ("/")) (by decide)⟩

/-- C9: the POST authorization scheme check is case-sensitive.  For every
    Authorization header whose first seven characters are a capitalization of
    the exact lowercase scheme other than itself (for example Bearer followed
    by a space), Post answers 403 with the bad-scheme reason and never reaches
    the store Put, whatever the embedded token would have verified to (the
    token check is universally quantified, including one that always
    accepts). -/
theorem c9_scheme_check_case_sensitive (checkToken : Str → Bool) (auth : Str)
    (hlow : (auth.take 7).map toLowerChar = strL ("bearer "))
    (hne : auth.take 7 ≠ strL ("bearer ")) :
    Server.Post checkToken auth = Server.PostResult.forbidden Server.AuthFail.badScheme := by
  have hauthlen : 7 ≤ auth.length := by
    have h := congrArg List.length hlow
    simp only [List.length_map, List.length_take] at h
    have h2 : (strL ("bearer ")).length = 7 := by decide
    rw [h2] at h
    omega
  have hnonempty : auth.isEmpty = false := by
    cases auth with
    | nil => simp at hauthlen
    | cons c rest => rfl
  have hpre : (strL ("bearer ")).isPrefixOf auth = false := by
    by_contra hc
    rw [Bool.not_eq_false, List.isPrefixOf_iff_prefix] at hc
    rw [List.prefix_iff_eq_take] at hc
    exact hne hc.symm
  simp [Server.Post, hnonempty, hpre]

/-- Witness for C9 at a concrete capitalized header and an always-accepting
    token check. -/
theorem c9_scheme_check_case_sensitive_witness :
    ((strL ("Bearer t1:x")).take 7).map toLowerChar = strL ("bearer ") ∧
      (strL ("Bearer t1:x")).take 7 ≠ strL ("bearer ") ∧
      Server.Post (fun _ => true) (strL ("Bearer t1:x")) =
        Server.PostResult.forbidden Server.AuthFail.badScheme :=
  ⟨by decide, by decide,
    c9_scheme_check_case_sensitive (fun _ => true) (strL ("Bearer t1:x"))
      (by decide) (by decide)⟩

end Artistore
